import Mathlib

/-!
Verification of the Korean PDF converter's core components against their
natural-language specification.  The JavaScript sources are shallowly
embedded: strings are modelled as `List Char` at the line level, JavaScript
`String.prototype` helpers (`trim`, `split`, `includes`, …) are re-implemented
with JavaScript semantics, and each stateful manager becomes an explicit
state-passing transition system.
-/

/-! ## JavaScript string primitives -/

/-- The character class matched by JavaScript regular-expression `\s` and
removed by `String.prototype.trim`. -/
def isJsWs (c : Char) : Bool :=
  c = ' ' || c = '\t' || c = '\n' || c = '\r' ||
  c = Char.ofNat 11 || c = Char.ofNat 12 || c = Char.ofNat 0xa0 ||
  c = Char.ofNat 0x1680 ||
  (0x2000 ≤ c.toNat && c.toNat ≤ 0x200a) ||
  c = Char.ofNat 0x2028 || c = Char.ofNat 0x2029 || c = Char.ofNat 0x202f ||
  c = Char.ofNat 0x205f || c = Char.ofNat 0x3000 || c = Char.ofNat 0xfeff

/-- JavaScript `String.prototype.trim`: strip `\s` characters from both ends. -/
def jsTrim (l : List Char) : List Char :=
  ((l.dropWhile isJsWs).reverse.dropWhile isJsWs).reverse

/-- JavaScript `str.split(sep)` for a single-character separator: always
returns at least one (possibly empty) segment. -/
def splitOnChar (sep : Char) : List Char → List (List Char)
  | [] => [[]]
  | c :: t =>
    match splitOnChar sep t with
    | [] => [[]]
    | h :: r => if c = sep then [] :: h :: r else (c :: h) :: r

/-- JavaScript `Array.prototype.join` with a single-character separator. -/
def joinWith (sep : Char) : List (List Char) → List Char
  | [] => []
  | [l] => l
  | l :: ls => l ++ sep :: joinWith sep ls

/-- JavaScript `str.includes('|')`. -/
def hasPipe (l : List Char) : Bool := l.any (· = '|')

/-- The backtick character (avoiding a literal in code). -/
def backtick : Char := Char.ofNat 96

/-! ## Table-Block Normalizer (editor-manager.js, `parseMarkdown` preprocessor)

The preprocessor inside `parseMarkdown` (src/js/editor/editor-manager.js,
lines 419–492) scans the markup line by line, copies fenced code blocks
verbatim, and splices a synthesized separator row into any run of
consecutive pipe-containing lines whose second line is not already a
separator row. -/

/-- Test for `/^\s*```/` — a fence line: optional leading whitespace followed
by three backticks. -/
def isFence (l : List Char) : Bool :=
  match l.dropWhile isJsWs with
  | a :: b :: c :: _ => a = backtick && b = backtick && c = backtick
  | _ => false

/-- Continuation condition of the pipe-block collection loop
(`nextLine.length === 0` / `!nextLine.includes('|')` break conditions,
where `nextLine = lines[j].trim()`). -/
def contBlock (l : List Char) : Bool :=
  let t := jsTrim l
  !t.isEmpty && hasPipe t

/-- Start condition of a candidate table block:
`line.includes('|') && line.trim().length > 0`. -/
def pipeCand (l : List Char) : Bool :=
  hasPipe l && !(jsTrim l).isEmpty

/-- Test for the dash-run regex `-{3,}` (as used via `.test`): three or more
consecutive dashes anywhere in the input. -/
def hasTripleDash : List Char → Bool
  | '-' :: '-' :: '-' :: _ => true
  | _ :: t => hasTripleDash t
  | [] => false

/-- Drop an optional leading colon (the `:?` pieces of the separator regex). -/
def dropColonOpt (l : List Char) : List Char :=
  match l with
  | c :: t => if c = ':' then t else l
  | [] => l

/-- Drop an optional leading pipe (the `\|?` piece of the separator regex). -/
def dropPipeOpt (l : List Char) : List Char :=
  match l with
  | c :: t => if c = '|' then t else l
  | [] => l

/-- Test for `/^\s*\|?\s*:?-{3,}(:?\s*\|.*)?$/` against an already-trimmed
line.  Greedy matching is complete here because at every choice point the
optional token can never also begin the remainder of the pattern. -/
def sepRegexMatch (l : List Char) : Bool :=
  let l1 := l.dropWhile isJsWs
  let l2 := dropPipeOpt l1
  let l3 := l2.dropWhile isJsWs
  let l4 := dropColonOpt l3
  let dashes := l4.takeWhile (· = '-')
  let l5 := l4.dropWhile (· = '-')
  if dashes.length < 3 then false
  else if l5.isEmpty then true
  else
    match (dropColonOpt l5).dropWhile isJsWs with
    | c :: _ => c = '|'
    | [] => false

/-- The separator test applied to the second line of a collected block:
`re1.test(second.trim()) || second.split('|').some(s => re2.test(s.trim()))`
where `re2` is the dash-run regex `-{3,}`. -/
def sepCheck (second : List Char) : Bool :=
  sepRegexMatch (jsTrim second) ||
    (splitOnChar '|' second).any (fun s => hasTripleDash (jsTrim s))

/-- Header cells: `block[0].split('|').map(s => s.trim()).filter(s => s.length > 0)`. -/
def headerCells (l : List Char) : List (List Char) :=
  ((splitOnChar '|' l).map jsTrim).filter (fun s => !s.isEmpty)

/-- `Math.max(cells.length, 1)`. -/
def colCount (l : List Char) : Nat := max (headerCells l).length 1

/-- The joined interior of the synthesized separator:
`Array(n).fill('---').join(' | ')`. -/
def sepInner : Nat → List Char
  | 0 => []
  | 1 => ['-', '-', '-']
  | n + 2 => ['-', '-', '-'] ++ ' ' :: '|' :: ' ' :: sepInner (n + 1)

/-- The synthesized separator row: `'| ' + Array(colCount).fill('---').join(' | ') + ' |'`. -/
def mkSep (header : List Char) : List Char :=
  '|' :: ' ' :: sepInner (colCount header) ++ [' ', '|']

/-- One pass of the normalizer's `while` loop over the line list, with
explicit fuel (each iteration consumes at least one line, so
`fuel = lines.length` suffices). -/
def normGo : Nat → List (List Char) → List (List Char)
  | 0, _ => []
  | _ + 1, [] => []
  | fuel + 1, l :: rest =>
    if isFence l then
      -- fenced code block: copy verbatim up to and including the closing fence
      match rest.dropWhile (fun x => !isFence x) with
      | [] => l :: rest.takeWhile (fun x => !isFence x)
      | c :: rest2 =>
        l :: (rest.takeWhile (fun x => !isFence x) ++ c :: normGo fuel rest2)
    else if pipeCand l then
      -- candidate table block: collect consecutive pipe lines
      let blockTail := rest.takeWhile contBlock
      let rest2 := rest.dropWhile contBlock
      let isSep := match blockTail with
                   | [] => false
                   | s :: _ => sepCheck s
      if isSep then l :: (blockTail ++ normGo fuel rest2)
      else l :: mkSep l :: (blockTail ++ normGo fuel rest2)
    else l :: normGo fuel rest

/-- The normalizer on a list of lines. -/
def normLines (ls : List (List Char)) : List (List Char) :=
  normGo ls.length ls

/-- The Table-Block Normalizer: `src.split('\n')`, normalize, `out.join('\n')`. -/
def normalizeTableBlocks (s : String) : String :=
  String.mk (joinWith '\n' (normLines (splitOnChar '\n' s.data)))

/-! ### List helpers for the normalizer proofs -/

theorem dropWhile_head_false {α : Type} (p : α → Bool) :
    ∀ (l : List α) (y : α) (ys : List α), l.dropWhile p = y :: ys → p y = false := by
  intro l
  induction l with
  | nil => intro y ys h; simp [List.dropWhile] at h
  | cons a t ih =>
    intro y ys h
    cases hp : p a with
    | true => rw [List.dropWhile_cons, hp] at h; exact ih y ys (by simpa using h)
    | false =>
      rw [List.dropWhile_cons, hp] at h
      simp at h
      obtain ⟨h1, _⟩ := h
      rw [← h1]; exact hp

theorem takeWhile_eq_of_dropWhile_nil {α : Type} (p : α → Bool) (l : List α)
    (h : l.dropWhile p = []) : l.takeWhile p = l := by
  have := List.takeWhile_append_dropWhile (p := p) (l := l)
  rw [h, List.append_nil] at this
  exact this

theorem all_of_dropWhile_nil {α : Type} (p : α → Bool) (l : List α)
    (h : l.dropWhile p = []) : ∀ x ∈ l, p x = true := by
  intro x hx
  rw [← takeWhile_eq_of_dropWhile_nil p l h] at hx
  exact List.mem_takeWhile_imp hx

theorem takeWhile_append_of_all {α : Type} (p : α → Bool) (xs ys : List α)
    (h : ∀ x ∈ xs, p x = true) :
    (xs ++ ys).takeWhile p = xs ++ ys.takeWhile p := by
  induction xs with
  | nil => simp
  | cons a t ih =>
    have ha : p a = true := h a (by simp)
    simp only [List.cons_append, List.takeWhile_cons, ha, if_true]
    rw [ih (fun x hx => h x (by simp [hx]))]

theorem dropWhile_append_of_all {α : Type} (p : α → Bool) (xs ys : List α)
    (h : ∀ x ∈ xs, p x = true) :
    (xs ++ ys).dropWhile p = ys.dropWhile p := by
  induction xs with
  | nil => simp
  | cons a t ih =>
    have ha : p a = true := h a (by simp)
    simp only [List.cons_append, List.dropWhile_cons, ha, if_true]
    exact ih (fun x hx => h x (by simp [hx]))

theorem takeWhile_cons_false {α : Type} (p : α → Bool) (y : α) (ys : List α)
    (h : p y = false) : (y :: ys).takeWhile p = [] := by
  simp [List.takeWhile_cons, h]

theorem dropWhile_cons_false {α : Type} (p : α → Bool) (y : α) (ys : List α)
    (h : p y = false) : (y :: ys).dropWhile p = y :: ys := by
  simp [List.dropWhile_cons, h]

/-! ### Unfolding equations for the normalizer -/

theorem normGo_succ_cons (fuel : Nat) (l : List Char) (rest : List (List Char)) :
    normGo (fuel + 1) (l :: rest) =
      if isFence l then
        match rest.dropWhile (fun x => !isFence x) with
        | [] => l :: rest.takeWhile (fun x => !isFence x)
        | c :: rest2 =>
          l :: (rest.takeWhile (fun x => !isFence x) ++ c :: normGo fuel rest2)
      else if pipeCand l then
        let blockTail := rest.takeWhile contBlock
        let rest2 := rest.dropWhile contBlock
        let isSep := match blockTail with
                     | [] => false
                     | s :: _ => sepCheck s
        if isSep then l :: (blockTail ++ normGo fuel rest2)
        else l :: mkSep l :: (blockTail ++ normGo fuel rest2)
      else l :: normGo fuel rest := rfl

theorem normGo_fuel_eq :
    ∀ (f g : Nat) (ls : List (List Char)), ls.length ≤ f → ls.length ≤ g →
      normGo f ls = normGo g ls := by
  intro f
  induction f with
  | zero =>
    intro g ls hf _
    have hls : ls = [] := List.length_eq_zero.mp (Nat.le_zero.mp hf)
    subst hls
    cases g <;> rfl
  | succ f ih =>
    intro g ls hf hg
    cases ls with
    | nil => cases g <;> rfl
    | cons l rest =>
      cases g with
      | zero => simp at hg
      | succ g =>
        have hrf : rest.length ≤ f := by simpa using hf
        have hrg : rest.length ≤ g := by simpa using hg
        rw [normGo_succ_cons, normGo_succ_cons]
        cases hfence : isFence l with
        | true =>
          simp only [hfence, if_true]
          cases hdrop : rest.dropWhile (fun x => !isFence x) with
          | nil => rfl
          | cons c rest2 =>
            have hsub : rest2.length < rest.length := by
              have hle := (List.dropWhile_sublist (l := rest) (fun x => !isFence x)).length_le
              rw [hdrop] at hle
              simpa using hle
            dsimp only
            rw [ih g rest2 (le_trans (Nat.le_of_lt hsub) hrf)
                  (le_trans (Nat.le_of_lt hsub) hrg)]
        | false =>
          simp only [hfence, Bool.false_eq_true, if_false]
          cases hpipe : pipeCand l with
          | true =>
            simp only [hpipe, if_true]
            have hlen : (rest.dropWhile contBlock).length ≤ rest.length :=
              (List.dropWhile_sublist _).length_le
            rw [ih g (rest.dropWhile contBlock) (le_trans hlen hrf) (le_trans hlen hrg)]
          | false =>
            simp only [hpipe, Bool.false_eq_true, if_false]
            rw [ih g rest hrf hrg]

theorem normLines_nil : normLines [] = [] := rfl

theorem normLines_cons_eq (l : List Char) (rest : List (List Char)) :
    normLines (l :: rest) =
      if isFence l then
        match rest.dropWhile (fun x => !isFence x) with
        | [] => l :: rest.takeWhile (fun x => !isFence x)
        | c :: rest2 =>
          l :: (rest.takeWhile (fun x => !isFence x) ++ c :: normLines rest2)
      else if pipeCand l then
        let blockTail := rest.takeWhile contBlock
        let rest2 := rest.dropWhile contBlock
        let isSep := match blockTail with
                     | [] => false
                     | s :: _ => sepCheck s
        if isSep then l :: (blockTail ++ normLines rest2)
        else l :: mkSep l :: (blockTail ++ normLines rest2)
      else l :: normLines rest := by
  show normGo (rest.length + 1) (l :: rest) = _
  rw [normGo_succ_cons]
  cases hfence : isFence l with
  | true =>
    simp only [hfence, if_true]
    cases hdrop : rest.dropWhile (fun x => !isFence x) with
    | nil => rfl
    | cons c rest2 =>
      have hsub : rest2.length < rest.length := by
        have hle := (List.dropWhile_sublist (l := rest) (fun x => !isFence x)).length_le
        rw [hdrop] at hle
        simpa using hle
      dsimp only
      rw [normGo_fuel_eq rest.length rest2.length rest2 (Nat.le_of_lt hsub) le_rfl]
      rfl
  | false =>
    simp only [hfence, Bool.false_eq_true, if_false]
    cases hpipe : pipeCand l with
    | true =>
      simp only [hpipe, if_true]
      have hlen : (rest.dropWhile contBlock).length ≤ rest.length :=
        (List.dropWhile_sublist _).length_le
      rw [normGo_fuel_eq rest.length (rest.dropWhile contBlock).length
            (rest.dropWhile contBlock) hlen le_rfl]
      rfl
    | false =>
      simp only [hpipe, Bool.false_eq_true, if_false]
      rfl

theorem normLines_fence_none (l : List Char) (rest : List (List Char))
    (hf : isFence l = true) (hd : rest.dropWhile (fun x => !isFence x) = []) :
    normLines (l :: rest) = l :: rest := by
  rw [normLines_cons_eq]
  simp only [hf, if_true, hd]
  rw [takeWhile_eq_of_dropWhile_nil _ _ hd]

theorem normLines_fence_close (l c : List Char) (rest rest2 : List (List Char))
    (hf : isFence l = true) (hd : rest.dropWhile (fun x => !isFence x) = c :: rest2) :
    normLines (l :: rest) =
      l :: (rest.takeWhile (fun x => !isFence x) ++ c :: normLines rest2) := by
  rw [normLines_cons_eq]
  simp only [hf, if_true, hd]

theorem normLines_pipe_sep (l s : List Char) (rest bt : List (List Char))
    (hnf : isFence l = false) (hp : pipeCand l = true)
    (ht : rest.takeWhile contBlock = s :: bt) (hs : sepCheck s = true) :
    normLines (l :: rest) =
      l :: ((s :: bt) ++ normLines (rest.dropWhile contBlock)) := by
  rw [normLines_cons_eq]
  simp only [hnf, Bool.false_eq_true, if_false, hp, if_true, ht, hs]

theorem normLines_pipe_nosep_nil (l : List Char) (rest : List (List Char))
    (hnf : isFence l = false) (hp : pipeCand l = true)
    (ht : rest.takeWhile contBlock = []) :
    normLines (l :: rest) =
      l :: mkSep l :: normLines (rest.dropWhile contBlock) := by
  rw [normLines_cons_eq]
  simp only [hnf, Bool.false_eq_true, if_false, hp, if_true, ht]
  simp

theorem normLines_pipe_nosep_cons (l s : List Char) (rest bt : List (List Char))
    (hnf : isFence l = false) (hp : pipeCand l = true)
    (ht : rest.takeWhile contBlock = s :: bt) (hs : sepCheck s = false) :
    normLines (l :: rest) =
      l :: mkSep l :: ((s :: bt) ++ normLines (rest.dropWhile contBlock)) := by
  rw [normLines_cons_eq]
  simp only [hnf, Bool.false_eq_true, if_false, hp, if_true, ht, hs]

theorem normLines_plain (l : List Char) (rest : List (List Char))
    (hnf : isFence l = false) (hnp : pipeCand l = false) :
    normLines (l :: rest) = l :: normLines rest := by
  rw [normLines_cons_eq]
  simp only [hnf, hnp, Bool.false_eq_true, if_false]

/-- Every branch of the normalizer emits the head line first. -/
theorem normLines_cons_head (l : List Char) (rest : List (List Char)) :
    ∃ t, normLines (l :: rest) = l :: t := by
  cases hfence : isFence l with
  | true =>
    cases hd : rest.dropWhile (fun x => !isFence x) with
    | nil => exact ⟨rest, normLines_fence_none l rest hfence hd⟩
    | cons c rest2 =>
      exact ⟨_, normLines_fence_close l c rest rest2 hfence hd⟩
  | false =>
    cases hpipe : pipeCand l with
    | true =>
      cases ht : rest.takeWhile contBlock with
      | nil =>
        exact ⟨_, normLines_pipe_nosep_nil l rest hfence hpipe ht⟩
      | cons s bt =>
        cases hs : sepCheck s with
        | true => exact ⟨_, normLines_pipe_sep l s rest bt hfence hpipe ht hs⟩
        | false => exact ⟨_, normLines_pipe_nosep_cons l s rest bt hfence hpipe ht hs⟩
    | false => exact ⟨_, normLines_plain l rest hfence hpipe⟩

/-! ### The synthesized separator satisfies the separator test -/

theorem jsTrim_of_ends (a b : Char) (m : List Char)
    (ha : isJsWs a = false) (hb : isJsWs b = false) :
    jsTrim (a :: (m ++ [b])) = a :: (m ++ [b]) := by
  unfold jsTrim
  rw [dropWhile_cons_false _ _ _ ha]
  have hrev : (a :: (m ++ [b])).reverse = b :: (m.reverse ++ [a]) := by simp
  rw [hrev, dropWhile_cons_false _ _ _ hb]
  simp

theorem mkSep_shape (h : List Char) :
    mkSep h = '|' :: ((' ' :: (sepInner (colCount h) ++ [' '])) ++ ['|']) := by
  unfold mkSep
  simp

theorem jsTrim_mkSep (h : List Char) : jsTrim (mkSep h) = mkSep h := by
  rw [mkSep_shape]
  exact jsTrim_of_ends '|' '|' _ (by decide) (by decide)

theorem contBlock_mkSep (h : List Char) : contBlock (mkSep h) = true := by
  unfold contBlock
  rw [jsTrim_mkSep]
  unfold mkSep hasPipe
  simp

theorem colCount_pos (h : List Char) : 1 ≤ colCount h := by
  unfold colCount
  omega

theorem sepInner_head (n : Nat) (hn : 1 ≤ n) :
    ∃ t, sepInner n = '-' :: '-' :: '-' :: t ∧
      (t = [] ∨ ∃ t2, t = ' ' :: '|' :: ' ' :: t2) := by
  match n, hn with
  | 1, _ => exact ⟨[], rfl, Or.inl rfl⟩
  | (m + 2), _ => exact ⟨_, rfl, Or.inr ⟨sepInner (m + 1), rfl⟩⟩

theorem sepRegexMatch_mkSep (h : List Char) :
    sepRegexMatch (mkSep h) = true := by
  obtain ⟨t, ht, hcase⟩ := sepInner_head (colCount h) (colCount_pos h)
  unfold sepRegexMatch
  rw [mkSep_shape, ht]
  rcases hcase with h0 | ⟨t2, h2⟩
  · subst h0
    simp [dropPipeOpt, dropColonOpt, List.dropWhile_cons, List.takeWhile_cons, isJsWs]
  · subst h2
    simp [dropPipeOpt, dropColonOpt, List.dropWhile_cons, List.takeWhile_cons, isJsWs]

theorem sepCheck_mkSep (h : List Char) : sepCheck (mkSep h) = true := by
  unfold sepCheck
  rw [jsTrim_mkSep, sepRegexMatch_mkSep]
  simp

/-! ### Idempotence of the normalizer -/

theorem normLines_drop_head_shape (xs : List (List Char)) :
    normLines (xs.dropWhile contBlock) = [] ∨
      ∃ b t, normLines (xs.dropWhile contBlock) = b :: t ∧ contBlock b = false := by
  cases hdw : xs.dropWhile contBlock with
  | nil => exact Or.inl rfl
  | cons b t =>
    obtain ⟨t2, ht2⟩ := normLines_cons_head b t
    exact Or.inr ⟨b, t2, ht2, dropWhile_head_false contBlock xs b t hdw⟩

theorem normLines_drop_takeWhile (xs : List (List Char)) :
    (normLines (xs.dropWhile contBlock)).takeWhile contBlock = [] := by
  rcases normLines_drop_head_shape xs with h | ⟨b, t, hbt, hb⟩
  · rw [h]; rfl
  · rw [hbt]; exact takeWhile_cons_false _ _ _ hb

theorem normLines_drop_dropWhile (xs : List (List Char)) :
    (normLines (xs.dropWhile contBlock)).dropWhile contBlock =
      normLines (xs.dropWhile contBlock) := by
  rcases normLines_drop_head_shape xs with h | ⟨b, t, hbt, hb⟩
  · rw [h]; rfl
  · rw [hbt]; exact dropWhile_cons_false _ _ _ hb

theorem normLines_idem (ls : List (List Char)) :
    normLines (normLines ls) = normLines ls := by
  suffices H : ∀ (n : Nat) (ls : List (List Char)), ls.length ≤ n →
      normLines (normLines ls) = normLines ls from H ls.length ls le_rfl
  intro n
  induction n with
  | zero =>
    intro ls h
    have hnil : ls = [] := List.length_eq_zero.mp (Nat.le_zero.mp h)
    subst hnil
    rfl
  | succ n ih =>
    intro ls hlen
    cases ls with
    | nil => rfl
    | cons l rest =>
      have hrest : rest.length ≤ n := by simpa using hlen
      cases hfence : isFence l with
      | true =>
        cases hd : rest.dropWhile (fun x => !isFence x) with
        | nil =>
          rw [normLines_fence_none l rest hfence hd,
              normLines_fence_none l rest hfence hd]
        | cons c rest2 =>
          have hbody : ∀ x ∈ rest.takeWhile (fun x => !isFence x), (!isFence x) = true :=
            fun x hx => List.mem_takeWhile_imp (p := fun y => !isFence y) hx
          have hc : (!isFence c) = false :=
            dropWhile_head_false (fun x => !isFence x) rest c rest2 hd
          have hlen2 : rest2.length ≤ n := by
            have hle := (List.dropWhile_sublist (l := rest) (fun x => !isFence x)).length_le
            rw [hd] at hle
            simp at hle
            omega
          rw [normLines_fence_close l c rest rest2 hfence hd]
          have hd2 : ((rest.takeWhile (fun x => !isFence x)) ++
              c :: normLines rest2).dropWhile (fun x => !isFence x) =
              c :: normLines rest2 := by
            rw [dropWhile_append_of_all _ _ _ hbody]
            exact dropWhile_cons_false _ _ _ hc
          rw [normLines_fence_close l c _ (normLines rest2) hfence hd2]
          have htw2 : ((rest.takeWhile (fun x => !isFence x)) ++
              c :: normLines rest2).takeWhile (fun x => !isFence x) =
              rest.takeWhile (fun x => !isFence x) := by
            rw [takeWhile_append_of_all _ _ _ hbody]
            rw [takeWhile_cons_false (fun y => !isFence y) c (normLines rest2) hc]
            simp
          rw [htw2, ih rest2 hlen2]
      | false =>
        have hlen2 : (rest.dropWhile contBlock).length ≤ n :=
          le_trans (List.dropWhile_sublist _).length_le hrest
        cases hpipe : pipeCand l with
        | true =>
          cases ht : rest.takeWhile contBlock with
          | nil =>
            rw [normLines_pipe_nosep_nil l rest hfence hpipe ht]
            have ht2 : (mkSep l :: normLines (rest.dropWhile contBlock)).takeWhile
                contBlock = mkSep l :: [] := by
              rw [List.takeWhile_cons, contBlock_mkSep, if_pos rfl,
                  normLines_drop_takeWhile]
            have hd2 : (mkSep l :: normLines (rest.dropWhile contBlock)).dropWhile
                contBlock = normLines (rest.dropWhile contBlock) := by
              rw [List.dropWhile_cons, contBlock_mkSep, if_pos rfl,
                  normLines_drop_dropWhile]
            rw [normLines_pipe_sep l (mkSep l) _ [] hfence hpipe ht2 (sepCheck_mkSep l)]
            rw [hd2, ih (rest.dropWhile contBlock) hlen2]
            simp
          | cons s bt =>
            have hbt : ∀ x ∈ (s :: bt), contBlock x = true := by
              intro x hx
              have : x ∈ rest.takeWhile contBlock := by rw [ht]; exact hx
              exact List.mem_takeWhile_imp this
            have htk : ((s :: bt) ++ normLines (rest.dropWhile contBlock)).takeWhile
                contBlock = s :: bt := by
              rw [takeWhile_append_of_all _ _ _ hbt, normLines_drop_takeWhile]
              simp
            have hdw : ((s :: bt) ++ normLines (rest.dropWhile contBlock)).dropWhile
                contBlock = normLines (rest.dropWhile contBlock) := by
              rw [dropWhile_append_of_all _ _ _ hbt, normLines_drop_dropWhile]
            cases hs : sepCheck s with
            | true =>
              rw [normLines_pipe_sep l s rest bt hfence hpipe ht hs]
              rw [normLines_pipe_sep l s _ bt hfence hpipe htk hs]
              rw [hdw, ih (rest.dropWhile contBlock) hlen2]
            | false =>
              rw [normLines_pipe_nosep_cons l s rest bt hfence hpipe ht hs]
              have hbt2 : ∀ x ∈ (mkSep l :: s :: bt), contBlock x = true := by
                intro x hx
                rcases List.mem_cons.mp hx with h1 | h2
                · rw [h1]; exact contBlock_mkSep l
                · exact hbt x h2
              have htk2 : (mkSep l :: ((s :: bt) ++
                  normLines (rest.dropWhile contBlock))).takeWhile contBlock =
                  mkSep l :: s :: bt := by
                rw [List.takeWhile_cons, contBlock_mkSep, if_pos rfl, htk]
              have hdw2 : (mkSep l :: ((s :: bt) ++
                  normLines (rest.dropWhile contBlock))).dropWhile contBlock =
                  normLines (rest.dropWhile contBlock) := by
                rw [List.dropWhile_cons, contBlock_mkSep, if_pos rfl, hdw]
              rw [normLines_pipe_sep l (mkSep l) _ (s :: bt) hfence hpipe htk2
                    (sepCheck_mkSep l)]
              rw [hdw2, ih (rest.dropWhile contBlock) hlen2]
              simp
        | false =>
          rw [normLines_plain l rest hfence hpipe,
              normLines_plain l (normLines rest) hfence hpipe,
              ih rest hrest]

/-! ### Split/join round-trip lemmas -/

theorem splitOnChar_ne_nil (sep : Char) (cs : List Char) : splitOnChar sep cs ≠ [] := by
  cases cs with
  | nil => simp [splitOnChar]
  | cons c t =>
    unfold splitOnChar
    cases h : splitOnChar sep t with
    | nil => simp
    | cons a r =>
      by_cases hc : c = sep <;> simp [hc]

theorem splitOnChar_not_mem (sep : Char) :
    ∀ (cs : List Char), ∀ line ∈ splitOnChar sep cs, sep ∉ line := by
  intro cs
  induction cs with
  | nil =>
    intro line hline
    simp [splitOnChar] at hline
    simp [hline]
  | cons c t ih =>
    intro line hline
    unfold splitOnChar at hline
    cases h : splitOnChar sep t with
    | nil => exact absurd h (splitOnChar_ne_nil sep t)
    | cons a r =>
      rw [h] at hline
      by_cases hc : c = sep
      · simp only [hc, if_pos rfl] at hline
        rcases List.mem_cons.mp hline with h1 | h2
        · simp [h1]
        · exact ih line (h ▸ h2)
      · simp only [if_neg hc] at hline
        rcases List.mem_cons.mp hline with h1 | h2
        · subst h1
          intro hmem
          rcases List.mem_cons.mp hmem with h3 | h4
          · exact hc h3.symm
          · exact ih a (h ▸ List.mem_cons_self a r) h4
        · exact ih line (h ▸ List.mem_cons_of_mem a h2)

theorem splitOnChar_single (sep : Char) :
    ∀ (l : List Char), sep ∉ l → splitOnChar sep l = [l] := by
  intro l
  induction l with
  | nil => intro _; rfl
  | cons c t ih =>
    intro h
    have hc : c ≠ sep := fun hcs => h (by simp [hcs])
    have ht : sep ∉ t := fun hts => h (List.mem_cons_of_mem c hts)
    unfold splitOnChar
    rw [ih ht]
    simp [hc]

theorem splitOnChar_cons (sep c : Char) (t : List Char) :
    splitOnChar sep (c :: t) =
      match splitOnChar sep t with
      | [] => [[]]
      | h :: r => if c = sep then [] :: h :: r else (c :: h) :: r := rfl

theorem splitOnChar_append_sep (sep : Char) :
    ∀ (l cs : List Char), sep ∉ l →
      splitOnChar sep (l ++ sep :: cs) = l :: splitOnChar sep cs := by
  intro l
  induction l with
  | nil =>
    intro cs _
    show splitOnChar sep (sep :: cs) = [] :: splitOnChar sep cs
    rw [splitOnChar_cons]
    cases h : splitOnChar sep cs with
    | nil => exact absurd h (splitOnChar_ne_nil sep cs)
    | cons a r => simp
  | cons c t ih =>
    intro cs h
    have hc : c ≠ sep := fun hcs => h (by simp [hcs])
    have ht : sep ∉ t := fun hts => h (List.mem_cons_of_mem c hts)
    show splitOnChar sep (c :: (t ++ sep :: cs)) = (c :: t) :: splitOnChar sep cs
    rw [splitOnChar_cons, ih cs ht]
    simp [hc]

theorem split_join (sep : Char) :
    ∀ (lss : List (List Char)), lss ≠ [] → (∀ l ∈ lss, sep ∉ l) →
      splitOnChar sep (joinWith sep lss) = lss := by
  intro lss
  induction lss with
  | nil => intro h _; exact absurd rfl h
  | cons l ls ih =>
    intro _ hmem
    cases ls with
    | nil =>
      show splitOnChar sep (joinWith sep [l]) = [l]
      unfold joinWith
      exact splitOnChar_single sep l (hmem l (by simp))
    | cons l2 r =>
      show splitOnChar sep (joinWith sep (l :: l2 :: r)) = l :: l2 :: r
      have hjoin : joinWith sep (l :: l2 :: r) = l ++ sep :: joinWith sep (l2 :: r) := rfl
      rw [hjoin, splitOnChar_append_sep sep l _ (hmem l (by simp))]
      rw [ih (by simp) (fun x hx => hmem x (List.mem_cons_of_mem l hx))]

/-! ### The normalizer preserves per-line predicates -/

theorem sepInner_chars :
    ∀ (n : Nat), ∀ c ∈ sepInner n, c = '-' ∨ c = ' ' ∨ c = '|' := by
  intro n
  induction n using Nat.strong_induction_on with
  | _ n ih =>
    match n with
    | 0 => intro c hc; simp [sepInner] at hc
    | 1 =>
      intro c hc
      simp [sepInner] at hc
      simp [hc]
    | (m + 2) =>
      intro c hc
      have hrw : sepInner (m + 2) = ['-', '-', '-'] ++ ' ' :: '|' :: ' ' :: sepInner (m + 1) := rfl
      rw [hrw] at hc
      rcases List.mem_append.mp hc with h5 | h6
      · simp at h5
        simp [h5]
      rcases List.mem_cons.mp h6 with h | h6b
      · simp [h]
      rcases List.mem_cons.mp h6b with h | h6c
      · simp [h]
      rcases List.mem_cons.mp h6c with h | h6d
      · simp [h]
      exact ih (m + 1) (by omega) c h6d

theorem newline_not_mem_mkSep (l : List Char) : '\n' ∉ mkSep l := by
  intro h
  unfold mkSep at h
  rcases List.mem_cons.mp h with h1 | h2
  · exact absurd h1 (by decide)
  rcases List.mem_cons.mp h2 with h3 | h4
  · exact absurd h3 (by decide)
  rcases List.mem_append.mp h4 with h5 | h6
  · rcases sepInner_chars _ '\n' h5 with h | h | h <;> exact absurd h (by decide)
  · exact absurd h6 (by decide)

theorem normLines_preserves (P : List Char → Prop) (hmk : ∀ l, P (mkSep l)) :
    ∀ (n : Nat) (ls : List (List Char)), ls.length ≤ n → (∀ l ∈ ls, P l) →
      ∀ l2 ∈ normLines ls, P l2 := by
  intro n
  induction n with
  | zero =>
    intro ls h _
    have hnil : ls = [] := List.length_eq_zero.mp (Nat.le_zero.mp h)
    subst hnil
    intro l2 h2
    simp [normLines_nil] at h2
  | succ n ih =>
    intro ls hlen hin
    cases ls with
    | nil => intro l2 h2; simp [normLines_nil] at h2
    | cons l rest =>
      have hrest : rest.length ≤ n := by simpa using hlen
      have hl : P l := hin l (by simp)
      have hinr : ∀ x ∈ rest, P x := fun x hx => hin x (List.mem_cons_of_mem l hx)
      cases hfence : isFence l with
      | true =>
        cases hd : rest.dropWhile (fun x => !isFence x) with
        | nil =>
          rw [normLines_fence_none l rest hfence hd]
          intro l2 h2
          rcases List.mem_cons.mp h2 with h3 | h4
          · exact h3 ▸ hl
          · exact hinr l2 h4
        | cons c rest2 =>
          rw [normLines_fence_close l c rest rest2 hfence hd]
          have hlen2 : rest2.length ≤ n := by
            have hle := (List.dropWhile_sublist (l := rest) (fun x => !isFence x)).length_le
            rw [hd] at hle
            simp at hle
            omega
          have hc : c ∈ rest := by
            have : c ∈ rest.dropWhile (fun x => !isFence x) := by rw [hd]; simp
            exact (List.dropWhile_sublist _).subset this
          have hrest2 : ∀ x ∈ rest2, P x := by
            intro x hx
            have : x ∈ rest.dropWhile (fun x => !isFence x) := by
              rw [hd]; exact List.mem_cons_of_mem c hx
            exact hinr x ((List.dropWhile_sublist _).subset this)
          intro l2 h2
          rcases List.mem_cons.mp h2 with h3 | h4
          · exact h3 ▸ hl
          rcases List.mem_append.mp h4 with h5 | h6
          · exact hinr l2 ((List.takeWhile_sublist _).subset h5)
          rcases List.mem_cons.mp h6 with h7 | h8
          · exact h7 ▸ hinr c hc
          · exact ih rest2 hlen2 hrest2 l2 h8
      | false =>
        have hlen2 : (rest.dropWhile contBlock).length ≤ n :=
          le_trans (List.dropWhile_sublist _).length_le hrest
        have hrest2 : ∀ x ∈ rest.dropWhile contBlock, P x :=
          fun x hx => hinr x ((List.dropWhile_sublist _).subset hx)
        cases hpipe : pipeCand l with
        | true =>
          cases ht : rest.takeWhile contBlock with
          | nil =>
            rw [normLines_pipe_nosep_nil l rest hfence hpipe ht]
            intro l2 h2
            rcases List.mem_cons.mp h2 with h3 | h4
            · exact h3 ▸ hl
            rcases List.mem_cons.mp h4 with h5 | h6
            · exact h5 ▸ hmk l
            · exact ih _ hlen2 hrest2 l2 h6
          | cons s bt =>
            have hsbt : ∀ x ∈ (s :: bt), P x := by
              intro x hx
              have : x ∈ rest.takeWhile contBlock := by rw [ht]; exact hx
              exact hinr x ((List.takeWhile_sublist _).subset this)
            cases hs : sepCheck s with
            | true =>
              rw [normLines_pipe_sep l s rest bt hfence hpipe ht hs]
              intro l2 h2
              rcases List.mem_cons.mp h2 with h3 | h4
              · exact h3 ▸ hl
              rcases List.mem_append.mp h4 with h5 | h6
              · exact hsbt l2 h5
              · exact ih _ hlen2 hrest2 l2 h6
            | false =>
              rw [normLines_pipe_nosep_cons l s rest bt hfence hpipe ht hs]
              intro l2 h2
              rcases List.mem_cons.mp h2 with h3 | h4
              · exact h3 ▸ hl
              rcases List.mem_cons.mp h4 with h5 | h6
              · exact h5 ▸ hmk l
              rcases List.mem_append.mp h6 with h7 | h8
              · exact hsbt l2 h7
              · exact ih _ hlen2 hrest2 l2 h8
        | false =>
          rw [normLines_plain l rest hfence hpipe]
          intro l2 h2
          rcases List.mem_cons.mp h2 with h3 | h4
          · exact h3 ▸ hl
          · exact ih rest hrest hinr l2 h4

/-! ## Claims C1 and C2 -/

/-- C1: For the input string "A | B\n1 | 2" (a two-cell pipe header line
followed by a pipe data line, with no separator row), the Table-Block
Normalizer returns exactly "A | B\n| --- | --- |\n1 | 2": a separator row
with one '---' cell per non-empty trimmed cell of the first line is spliced
in immediately after the header line, and all other lines are unchanged. -/
theorem C1_separator_synthesis :
    normalizeTableBlocks "A | B\n1 | 2" = "A | B\n| --- | --- |\n1 | 2" := by
  decide

/-- C2: The Table-Block Normalizer (the markup preprocessor inside
`parseMarkdown`) is idempotent: normalizing an already-normalized string
changes nothing. -/
theorem C2_normalizer_idempotent (s : String) :
    normalizeTableBlocks (normalizeTableBlocks s) = normalizeTableBlocks s := by
  have hnn : ∀ l ∈ splitOnChar '\n' s.data, '\n' ∉ l := splitOnChar_not_mem '\n' s.data
  have hout_nn : ∀ l ∈ normLines (splitOnChar '\n' s.data), '\n' ∉ l :=
    normLines_preserves (fun l => '\n' ∉ l) newline_not_mem_mkSep
      (splitOnChar '\n' s.data).length (splitOnChar '\n' s.data) le_rfl hnn
  have hne : normLines (splitOnChar '\n' s.data) ≠ [] := by
    cases hsp : splitOnChar '\n' s.data with
    | nil => exact absurd hsp (splitOnChar_ne_nil '\n' s.data)
    | cons a t =>
      obtain ⟨t2, ht2⟩ := normLines_cons_head a t
      rw [ht2]
      simp
  show String.mk (joinWith '\n' (normLines (splitOnChar '\n'
      (String.mk (joinWith '\n' (normLines (splitOnChar '\n' s.data)))).data))) =
    String.mk (joinWith '\n' (normLines (splitOnChar '\n' s.data)))
  rw [show (String.mk (joinWith '\n' (normLines (splitOnChar '\n' s.data)))).data
        = joinWith '\n' (normLines (splitOnChar '\n' s.data)) from rfl]
  rw [split_join '\n' _ hne hout_nn, normLines_idem]

/-! ## History Manager (editor-manager.js, `saveHistoryState` / `undo` / `redo`)

The undo/redo log of src/js/editor/editor-manager.js (lines 176–243) is
embedded as an explicit state machine.  `history` is the bounded snapshot
array, `historyIndex` the cursor (initially `-1`), `content` the live
textarea value.  A `record` operation models a debounced input event: the
textarea value changes and `saveHistoryState` runs on the new value. -/

structure HistoryEntry where
  content : String
  selectionStart : Nat
  selectionEnd : Nat
deriving DecidableEq

structure EditorState where
  history : List HistoryEntry
  historyIndex : Int
  content : String
  selStart : Nat
  selEnd : Nat
deriving DecidableEq

/-- `this.maxHistoryLength = 50`. -/
def maxHistoryLength : Nat := 50

/-- Constructor state: `history = []`, `historyIndex = -1`, empty editor. -/
def initialEditorState : EditorState :=
  { history := [], historyIndex := -1, content := "", selStart := 0, selEnd := 0 }

/-- The push-and-evict tail of `saveHistoryState` (lines 187–197):
append, then either evict the oldest entry without moving the cursor
(`this.history.shift()`) or advance the cursor. -/
def pushEntry (s : EditorState) (content : String) (st en : Nat) : EditorState :=
  let hist2 := s.history ++ [{ content := content, selectionStart := st, selectionEnd := en }]
  if hist2.length > maxHistoryLength then
    { s with history := hist2.drop 1 }
  else
    { s with history := hist2, historyIndex := s.historyIndex + 1 }

/-- The redo-branch pruning prologue of `saveHistoryState` (lines 177–180):
`if (historyIndex < history.length - 1) history = history.slice(0, historyIndex + 1)`. -/
def truncRedo (s : EditorState) : EditorState :=
  if s.historyIndex < (s.history.length : Int) - 1 then
    { s with history := s.history.take (s.historyIndex + 1).toNat }
  else s

/-- `saveHistoryState(content, start, end)`: prune the redo branch, skip when
the content equals the last stored snapshot, otherwise push. -/
def saveHistoryState (s : EditorState) (content : String) (st en : Nat) : EditorState :=
  let s1 := truncRedo s
  match s1.history.getLast? with
  | some last =>
    if last.content = content then s1
    else pushEntry s1 content st en
  | none => pushEntry s1 content st en

/-- `applyHistoryState()`: restore the entry at the cursor into the live
editor (guarded by `0 <= historyIndex < history.length`). -/
def applyHistoryState (s : EditorState) : EditorState :=
  if 0 ≤ s.historyIndex ∧ s.historyIndex < (s.history.length : Int) then
    match s.history[s.historyIndex.toNat]? with
    | some e =>
      { s with content := e.content, selStart := e.selectionStart, selEnd := e.selectionEnd }
    | none => s
  else s

/-- `undo()`: move the cursor back and restore, or no-op at the start. -/
def undoOp (s : EditorState) : EditorState :=
  if 0 < s.historyIndex then
    applyHistoryState { s with historyIndex := s.historyIndex - 1 }
  else s

/-- `redo()`: move the cursor forward and restore, or no-op at the tail. -/
def redoOp (s : EditorState) : EditorState :=
  if s.historyIndex < (s.history.length : Int) - 1 then
    applyHistoryState { s with historyIndex := s.historyIndex + 1 }
  else s

/-- User-visible operations on the editor history. -/
inductive EditorOp where
  | record (content : String) (selStart selEnd : Nat)
  | undo
  | redo

/-- Apply one operation.  A `record` models typing (the textarea now holds
`c`) followed by the debounced `saveHistoryState(c, st, en)`. -/
def applyOp (s : EditorState) : EditorOp → EditorState
  | .record c st en =>
    saveHistoryState { s with content := c, selStart := st, selEnd := en } c st en
  | .undo => undoOp s
  | .redo => redoOp s

/-- Run a sequence of operations from the initial editor state. -/
def runOps (ops : List EditorOp) : EditorState :=
  ops.foldl applyOp initialEditorState

/-- Well-formedness invariant of the history state machine. -/
def historyWF (s : EditorState) : Prop :=
  List.Chain' (fun a b => a.content ≠ b.content) s.history ∧
  s.history.length ≤ maxHistoryLength ∧
  -1 ≤ s.historyIndex ∧
  s.historyIndex < (s.history.length : Int) ∧
  (0 ≤ s.historyIndex →
    ∃ e, s.history[s.historyIndex.toNat]? = some e ∧ s.content = e.content)

theorem pushEntry_wf (s : EditorState) (c : String) (st en : Nat)
    (hch : List.Chain' (fun a b => a.content ≠ b.content) s.history)
    (hlen : s.history.length ≤ maxHistoryLength)
    (hidx : (s.history.length : Int) = s.historyIndex + 1)
    (hlast : ∀ x ∈ s.history.getLast?, x.content ≠ c)
    (hcontent : s.content = c) :
    historyWF (pushEntry s c st en) := by
  have hm : maxHistoryLength = 50 := rfl
  have hch2 : List.Chain' (fun a b => a.content ≠ b.content)
      (s.history ++ [({ content := c, selectionStart := st, selectionEnd := en } : HistoryEntry)]) := by
    rw [List.chain'_append]
    refine ⟨hch, List.chain'_singleton _, ?_⟩
    intro x hx y hy
    simp at hy
    subst hy
    exact hlast x hx
  unfold pushEntry
  by_cases hgt :
      (s.history ++
        [({ content := c, selectionStart := st, selectionEnd := en } : HistoryEntry)]).length >
        maxHistoryLength
  · rw [if_pos hgt]
    have hlen50 : s.history.length = 50 := by
      simp at hgt
      omega
    refine ⟨?_, ?_, ?_, ?_, ?_⟩
    · show List.Chain' (fun a b => a.content ≠ b.content)
        ((s.history ++
          [({ content := c, selectionStart := st, selectionEnd := en } : HistoryEntry)]).drop 1)
      rw [List.drop_one]
      exact hch2.tail
    · show ((s.history ++
          [({ content := c, selectionStart := st, selectionEnd := en } : HistoryEntry)]).drop 1).length ≤
        maxHistoryLength
      simp [hlen50, hm]
    · show -1 ≤ s.historyIndex
      omega
    · show s.historyIndex < (((s.history ++
          [({ content := c, selectionStart := st, selectionEnd := en } : HistoryEntry)]).drop 1).length : Int)
      simp [hlen50]
      omega
    · intro _
      refine ⟨({ content := c, selectionStart := st, selectionEnd := en } : HistoryEntry),
        ?_, hcontent⟩
      show ((s.history ++
          [({ content := c, selectionStart := st, selectionEnd := en } : HistoryEntry)]).drop 1)[s.historyIndex.toNat]? =
        some ({ content := c, selectionStart := st, selectionEnd := en } : HistoryEntry)
      rw [List.getElem?_drop]
      have harith : 1 + s.historyIndex.toNat = s.history.length := by omega
      rw [harith]
      simp
  · rw [if_neg hgt]
    have hle : s.history.length + 1 ≤ 50 := by
      simp at hgt
      omega
    refine ⟨hch2, ?_, ?_, ?_, ?_⟩
    · show (s.history ++
          [({ content := c, selectionStart := st, selectionEnd := en } : HistoryEntry)]).length ≤
        maxHistoryLength
      simp [hm]
      omega
    · show -1 ≤ s.historyIndex + 1
      omega
    · show s.historyIndex + 1 < ((s.history ++
          [({ content := c, selectionStart := st, selectionEnd := en } : HistoryEntry)]).length : Int)
      simp
      omega
    · intro _
      refine ⟨({ content := c, selectionStart := st, selectionEnd := en } : HistoryEntry),
        ?_, hcontent⟩
      show (s.history ++
          [({ content := c, selectionStart := st, selectionEnd := en } : HistoryEntry)])[(s.historyIndex + 1).toNat]? =
        some ({ content := c, selectionStart := st, selectionEnd := en } : HistoryEntry)
      have harith : (s.historyIndex + 1).toNat = s.history.length := by omega
      rw [harith]
      simp

theorem truncRedo_history (s : EditorState)
    (hlo : -1 ≤ s.historyIndex) (hhi : s.historyIndex < (s.history.length : Int)) :
    ((truncRedo s).history.length : Int) = s.historyIndex + 1 ∧
    (truncRedo s).historyIndex = s.historyIndex ∧
    (truncRedo s).content = s.content ∧
    (∀ R, List.Chain' R s.history → List.Chain' R (truncRedo s).history) ∧
    (truncRedo s).history.length ≤ s.history.length := by
  unfold truncRedo
  by_cases htr : s.historyIndex < (s.history.length : Int) - 1
  · rw [if_pos htr]
    have hmin : (s.historyIndex + 1).toNat ≤ s.history.length := by omega
    refine ⟨?_, rfl, rfl, ?_, ?_⟩
    · show ((s.history.take (s.historyIndex + 1).toNat).length : Int) = s.historyIndex + 1
      rw [List.length_take, Nat.min_eq_left hmin]
      omega
    · intro R hch
      exact hch.take _
    · show (s.history.take (s.historyIndex + 1).toNat).length ≤ s.history.length
      rw [List.length_take]
      omega
  · rw [if_neg htr]
    exact ⟨by omega, rfl, rfl, fun R hch => hch, le_rfl⟩

theorem saveHistoryState_wf (s : EditorState) (c : String) (st en : Nat)
    (hch : List.Chain' (fun a b => a.content ≠ b.content) s.history)
    (hlen : s.history.length ≤ maxHistoryLength)
    (hlo : -1 ≤ s.historyIndex)
    (hhi : s.historyIndex < (s.history.length : Int))
    (hcontent : s.content = c) :
    historyWF (saveHistoryState s c st en) := by
  obtain ⟨hlen1, hidx1, hcont1, hch1, hle1⟩ := truncRedo_history s hlo hhi
  have hch2 := hch1 _ hch
  have hlen2 : (truncRedo s).history.length ≤ maxHistoryLength := le_trans hle1 hlen
  unfold saveHistoryState
  cases hlast : (truncRedo s).history.getLast? with
  | none =>
    simp only [hlast]
    exact pushEntry_wf (truncRedo s) c st en hch2 hlen2 (hidx1 ▸ hlen1)
      (by rw [hlast]; intro x hx; simp at hx) (hcont1.trans hcontent)
  | some last =>
    simp only [hlast]
    by_cases heq : last.content = c
    · rw [if_pos heq]
      have hne : (truncRedo s).history ≠ [] := by
        intro hnil
        rw [hnil] at hlast
        simp at hlast
      have hpos : 1 ≤ (truncRedo s).history.length := by
        cases hh : (truncRedo s).history with
        | nil => exact absurd hh hne
        | cons a t => simp [hh]
      refine ⟨hch2, hlen2, ?_, ?_, ?_⟩
      · show -1 ≤ (truncRedo s).historyIndex
        omega
      · show (truncRedo s).historyIndex < ((truncRedo s).history.length : Int)
        omega
      · intro _
        refine ⟨last, ?_, ?_⟩
        · have harith : (truncRedo s).historyIndex.toNat = (truncRedo s).history.length - 1 := by
            omega
          rw [harith, ← List.getLast?_eq_getElem?]
          exact hlast
        · rw [hcont1, hcontent, ← heq]
    · rw [if_neg heq]
      refine pushEntry_wf (truncRedo s) c st en hch2 hlen2 (hidx1 ▸ hlen1) ?_
        (hcont1.trans hcontent)
      rw [hlast]
      intro x hx
      simp at hx
      subst hx
      exact heq

theorem undoOp_wf (s : EditorState) (h : historyWF s) : historyWF (undoOp s) := by
  obtain ⟨hch, hlen, hlo, hhi, hcont⟩ := h
  unfold undoOp
  by_cases h0 : 0 < s.historyIndex
  · rw [if_pos h0]
    unfold applyHistoryState
    have hcond : 0 ≤ s.historyIndex - 1 ∧ s.historyIndex - 1 < (s.history.length : Int) := by
      constructor <;> omega
    rw [if_pos (by simpa using hcond)]
    have hlt : (s.historyIndex - 1).toNat < s.history.length := by omega
    rw [List.getElem?_eq_getElem hlt]
    dsimp only
    refine ⟨hch, hlen, ?_, ?_, ?_⟩
    · show -1 ≤ s.historyIndex - 1
      omega
    · show s.historyIndex - 1 < (s.history.length : Int)
      omega
    intro _
    exact ⟨_, List.getElem?_eq_getElem hlt, rfl⟩
  · rw [if_neg h0]
    exact ⟨hch, hlen, hlo, hhi, hcont⟩

theorem redoOp_wf (s : EditorState) (h : historyWF s) : historyWF (redoOp s) := by
  obtain ⟨hch, hlen, hlo, hhi, hcont⟩ := h
  unfold redoOp
  by_cases h0 : s.historyIndex < (s.history.length : Int) - 1
  · rw [if_pos h0]
    unfold applyHistoryState
    have hcond : 0 ≤ s.historyIndex + 1 ∧ s.historyIndex + 1 < (s.history.length : Int) := by
      constructor <;> omega
    rw [if_pos (by simpa using hcond)]
    have hlt : (s.historyIndex + 1).toNat < s.history.length := by omega
    rw [List.getElem?_eq_getElem hlt]
    dsimp only
    refine ⟨hch, hlen, ?_, ?_, ?_⟩
    · show -1 ≤ s.historyIndex + 1
      omega
    · show s.historyIndex + 1 < (s.history.length : Int)
      omega
    intro _
    exact ⟨_, List.getElem?_eq_getElem hlt, rfl⟩
  · rw [if_neg h0]
    exact ⟨hch, hlen, hlo, hhi, hcont⟩

theorem applyOp_wf (s : EditorState) (op : EditorOp) (h : historyWF s) :
    historyWF (applyOp s op) := by
  cases op with
  | record c st en =>
    obtain ⟨hch, hlen, hlo, hhi, _⟩ := h
    exact saveHistoryState_wf { s with content := c, selStart := st, selEnd := en }
      c st en hch hlen hlo hhi rfl
  | undo => exact undoOp_wf s h
  | redo => exact redoOp_wf s h

theorem initial_wf : historyWF initialEditorState := by
  refine ⟨List.chain'_nil, ?_, ?_, ?_, ?_⟩
  · show (0 : Nat) ≤ maxHistoryLength
    decide
  · show (-1 : Int) ≤ -1
    omega
  · show (-1 : Int) < ((0 : Nat) : Int)
    omega
  · intro h0
    exact absurd h0 (by decide)

theorem runOps_wf (ops : List EditorOp) : historyWF (runOps ops) := by
  suffices H : ∀ (ops : List EditorOp) (s : EditorState),
      historyWF s → historyWF (ops.foldl applyOp s) from
    H ops initialEditorState initial_wf
  intro ops
  induction ops with
  | nil => intro s h; exact h
  | cons op rest ih => intro s h; exact ih _ (applyOp_wf s op h)

/-! ### Characterizing a run of distinct record operations -/

/-- A debounced snapshot operation for each typed content, with the caret at 0
(the caret fields are irrelevant to the content claims). -/
def recordsOf (cs : List String) : List EditorOp :=
  cs.map (fun c => EditorOp.record c 0 0)

def entryOf (c : String) : HistoryEntry :=
  { content := c, selectionStart := 0, selectionEnd := 0 }

/-- The editor state reached after recording the contents `cs` in order
(when no eviction and no coalescing has occurred). -/
def recordedState (cs : List String) : EditorState :=
  { history := cs.map entryOf,
    historyIndex := (cs.length : Int) - 1,
    content := (cs.getLast?).getD "",
    selStart := 0, selEnd := 0 }

theorem getLast?_ne_none {α : Type} (l : List α) (h : l ≠ []) :
    ∃ a, l.getLast? = some a := by
  cases hl : l.getLast? with
  | some a => exact ⟨a, rfl⟩
  | none =>
    cases l with
    | nil => exact absurd rfl h
    | cons b t =>
      rw [List.getLast?_eq_getElem?] at hl
      simp at hl

theorem records_base (c : String) :
    applyOp initialEditorState (EditorOp.record c 0 0) = recordedState [c] := by
  show saveHistoryState
      { initialEditorState with content := c, selStart := 0, selEnd := 0 } c 0 0 =
    recordedState [c]
  unfold saveHistoryState truncRedo pushEntry
  simp [initialEditorState, recordedState, entryOf, maxHistoryLength]

theorem records_step (pre : List String) (c : String) (hpre : pre ≠ [])
    (hlen : pre.length + 1 ≤ 50) (hlast : ∀ x ∈ pre.getLast?, x ≠ c) :
    applyOp (recordedState pre) (EditorOp.record c 0 0) = recordedState (pre ++ [c]) := by
  obtain ⟨lp, hlp⟩ := getLast?_ne_none pre hpre
  have hne2 : (entryOf lp).content ≠ c := hlast lp (hlp ▸ rfl)
  show saveHistoryState { recordedState pre with content := c, selStart := 0, selEnd := 0 }
      c 0 0 = recordedState (pre ++ [c])
  unfold saveHistoryState truncRedo pushEntry
  dsimp only [recordedState]
  rw [if_neg (by simp)]
  rw [List.getLast?_map, hlp]
  dsimp only [Option.map]
  rw [if_neg hne2]
  rw [if_neg (by
    simp only [List.length_append, List.length_map, List.length_cons, List.length_nil,
      maxHistoryLength, gt_iff_lt, not_lt]
    omega)]
  simp only [EditorState.mk.injEq]
  refine ⟨?_, ?_, ?_, trivial, trivial⟩
  · rw [List.map_append]
    rfl
  · simp
    try omega
  · rw [List.getLast?_concat]
    rfl

theorem runRecords_from : ∀ (cs pre : List String), pre ≠ [] →
    pre.length + cs.length ≤ 50 → List.Chain' (· ≠ ·) (pre ++ cs) →
    (recordsOf cs).foldl applyOp (recordedState pre) = recordedState (pre ++ cs) := by
  intro cs
  induction cs with
  | nil =>
    intro pre _ _ _
    simp [recordsOf]
  | cons c cs2 ih =>
    intro pre hpre hlen hch
    have hlast : ∀ x ∈ pre.getLast?, x ≠ c := by
      have := (List.chain'_append.mp hch).2.2
      intro x hx
      exact this x hx c rfl
    have hstep := records_step pre c hpre (by simp at hlen; omega) hlast
    show (recordsOf cs2).foldl applyOp
        (applyOp (recordedState pre) (EditorOp.record c 0 0)) = recordedState (pre ++ c :: cs2)
    rw [hstep]
    have hassoc : (pre ++ [c]) ++ cs2 = pre ++ c :: cs2 := by simp
    rw [← hassoc]
    exact ih (pre ++ [c]) (by simp) (by simp at hlen ⊢; omega) (by rw [hassoc]; exact hch)

theorem runRecords (c : String) (cs : List String)
    (hlen : (c :: cs).length ≤ 50) (hch : List.Chain' (· ≠ ·) (c :: cs)) :
    runOps (recordsOf (c :: cs)) = recordedState (c :: cs) := by
  show (EditorOp.record c 0 0 :: recordsOf cs).foldl applyOp initialEditorState =
    recordedState (c :: cs)
  rw [List.foldl_cons, records_base c]
  have hjoin : ([c] ++ cs) = c :: cs := rfl
  have hlen2 : cs.length + 1 ≤ 50 := by simpa using hlen
  rw [← hjoin]
  exact runRecords_from cs [c] (by simp) (by simp; omega) (by rw [hjoin]; exact hch)

theorem undoOp_pos (s : EditorState) (h : 0 < s.historyIndex) :
    undoOp s = applyHistoryState { s with historyIndex := s.historyIndex - 1 } := by
  unfold undoOp
  rw [if_pos h]

theorem undoOp_nonpos (s : EditorState) (h : ¬0 < s.historyIndex) : undoOp s = s := by
  unfold undoOp
  rw [if_neg h]

theorem redoOp_pos (s : EditorState) (h : s.historyIndex < (s.history.length : Int) - 1) :
    redoOp s = applyHistoryState { s with historyIndex := s.historyIndex + 1 } := by
  unfold redoOp
  rw [if_pos h]

theorem applyHistoryState_some (s : EditorState) (e : HistoryEntry)
    (hcond : 0 ≤ s.historyIndex ∧ s.historyIndex < (s.history.length : Int))
    (he : s.history[s.historyIndex.toNat]? = some e) :
    applyHistoryState s =
      { s with content := e.content, selStart := e.selectionStart,
               selEnd := e.selectionEnd } := by
  unfold applyHistoryState
  rw [if_pos hcond, he]

theorem undo_iterate (s : EditorState)
    (h0 : 0 ≤ s.historyIndex) (hhi : s.historyIndex < (s.history.length : Int))
    (hcont : ∃ e, s.history[s.historyIndex.toNat]? = some e ∧ s.content = e.content) :
    ∀ k : Nat,
      (undoOp^[k] s).history = s.history ∧
      (undoOp^[k] s).historyIndex = max (s.historyIndex - k) 0 ∧
      ∃ e, (undoOp^[k] s).history[(undoOp^[k] s).historyIndex.toNat]? = some e ∧
        (undoOp^[k] s).content = e.content := by
  intro k
  induction k with
  | zero =>
    refine ⟨rfl, ?_, hcont⟩
    show s.historyIndex = max (s.historyIndex - ((0 : Nat) : Int)) 0
    push_cast
    omega
  | succ k ih =>
    obtain ⟨ihh, ihi, e, he, hec⟩ := ih
    rw [Function.iterate_succ_apply']
    have hlen_eq : (undoOp^[k] s).history.length = s.history.length := by rw [ihh]
    by_cases htpos : 0 < (undoOp^[k] s).historyIndex
    · have hlt : ((undoOp^[k] s).historyIndex - 1).toNat < (undoOp^[k] s).history.length := by
        rw [hlen_eq]
        omega
      have htle : (undoOp^[k] s).historyIndex ≤ s.historyIndex := by
        rw [ihi]
        exact max_le (by omega) h0
      rw [undoOp_pos _ htpos,
          applyHistoryState_some _ ((undoOp^[k] s).history.get
            ⟨((undoOp^[k] s).historyIndex - 1).toNat, hlt⟩)
            ⟨by
              show (0 : Int) ≤ (undoOp^[k] s).historyIndex - 1
              omega,
            by
              show (undoOp^[k] s).historyIndex - 1 < (((undoOp^[k] s).history.length : Int))
              rw [ihh]
              omega⟩
            (by
              show (undoOp^[k] s).history[((undoOp^[k] s).historyIndex - 1).toNat]? = _
              rw [List.getElem?_eq_getElem hlt]
              rfl)]
      refine ⟨ihh, ?_, ?_⟩
      · show (undoOp^[k] s).historyIndex - 1 = max (s.historyIndex - ((k + 1 : Nat) : Int)) 0
        push_cast
        omega
      · refine ⟨(undoOp^[k] s).history.get
          ⟨((undoOp^[k] s).historyIndex - 1).toNat, hlt⟩, ?_, rfl⟩
        show (undoOp^[k] s).history[((undoOp^[k] s).historyIndex - 1).toNat]? = _
        rw [List.getElem?_eq_getElem hlt]
        rfl
    · rw [undoOp_nonpos _ htpos]
      refine ⟨ihh, ?_, ⟨e, he, hec⟩⟩
      push_cast
      omega

theorem undo_redo_roundtrip (ops : List EditorOp)
    (h0 : 0 < (runOps ops).historyIndex) :
    (redoOp (undoOp (runOps ops))).content = (runOps ops).content := by
  obtain ⟨hch, hlen, hlo, hhi, hcont⟩ := runOps_wf ops
  obtain ⟨e, he, hec⟩ := hcont (by omega)
  have hlt : ((runOps ops).historyIndex - 1).toNat < (runOps ops).history.length := by omega
  rw [undoOp_pos _ h0,
      applyHistoryState_some _ ((runOps ops).history.get
        ⟨((runOps ops).historyIndex - 1).toNat, hlt⟩)
        ⟨by
          show (0 : Int) ≤ (runOps ops).historyIndex - 1
          omega,
        by
          show (runOps ops).historyIndex - 1 < ((runOps ops).history.length : Int)
          omega⟩
        (by
          show (runOps ops).history[((runOps ops).historyIndex - 1).toNat]? = _
          rw [List.getElem?_eq_getElem hlt]
          rfl)]
  rw [redoOp_pos _ (by
    show (runOps ops).historyIndex - 1 < ((runOps ops).history.length : Int) - 1
    omega)]
  have hlt2 : (((runOps ops).historyIndex - 1) + 1).toNat < (runOps ops).history.length := by
    omega
  rw [applyHistoryState_some _ ((runOps ops).history.get
        ⟨(((runOps ops).historyIndex - 1) + 1).toNat, hlt2⟩)
        ⟨by
          show (0 : Int) ≤ ((runOps ops).historyIndex - 1) + 1
          omega,
        by
          show ((runOps ops).historyIndex - 1) + 1 < ((runOps ops).history.length : Int)
          omega⟩
        (by
          show (runOps ops).history[(((runOps ops).historyIndex - 1) + 1).toNat]? = _
          rw [List.getElem?_eq_getElem hlt2]
          rfl)]
  show ((runOps ops).history.get
      ⟨(((runOps ops).historyIndex - 1) + 1).toNat, hlt2⟩).content = (runOps ops).content
  have hidx : (((runOps ops).historyIndex - 1) + 1).toNat = (runOps ops).historyIndex.toNat := by
    omega
  have hsome := List.getElem?_eq_getElem
    (show (runOps ops).historyIndex.toNat < (runOps ops).history.length by omega)
  rw [hsome] at he
  have hee : (runOps ops).history[(runOps ops).historyIndex.toNat] = e := by
    simpa using he
  have hget : (runOps ops).history.get
      ⟨(((runOps ops).historyIndex - 1) + 1).toNat, hlt2⟩ = e := by
    rw [← hee]
    simp only [List.get_eq_getElem]
    congr 1
  rw [hget, ← hec]

/-! ## Claims C5 and C6 -/

/-- C6: Invariant of the History Manager: after any sequence of record
(`saveHistoryState`), undo, and redo operations from the initial state, no
two consecutive entries of the history have identical content, and the
history length never exceeds the capacity of 50. -/
theorem C6_history_invariant (ops : List EditorOp) :
    List.Chain' (fun a b => a.content ≠ b.content) (runOps ops).history ∧
    (runOps ops).history.length ≤ 50 :=
  ⟨(runOps_wf ops).1, (runOps_wf ops).2.1⟩

/-- C5 (counterexample): starting from the empty editor and empty history,
one record of "a" (N = 1 ≤ 50, consecutive contents distinct) followed by
one undo does NOT restore the initial empty content: `undo` at
`historyIndex = 0` is a no-op, so the content stays "a".  The claim demands
the empty string. -/
theorem C5_counterexample :
    (runOps [EditorOp.record "a" 0 0, EditorOp.undo]).content = "a" ∧
    ("a" : String) ≠ "" := by
  constructor
  · rfl
  · decide

/-- C5 (amended): starting from an empty editor and empty history, after
N ≤ 50 record operations with pairwise-distinct consecutive contents,
applying undo N times restores the FIRST recorded content (not the initial
empty content: index 0 is the terminal undo state, and the pre-record empty
content is never snapshotted); and undo followed by redo restores the
content whenever the undo actually moved the cursor (historyIndex > 0). -/
theorem C5_amended_undo_behavior :
    (∀ (c : String) (cs : List String),
        (c :: cs).length ≤ 50 → List.Chain' (· ≠ ·) (c :: cs) →
        (undoOp^[(c :: cs).length] (runOps (recordsOf (c :: cs)))).content = c) ∧
    (∀ ops : List EditorOp, 0 < (runOps ops).historyIndex →
        (redoOp (undoOp (runOps ops))).content = (runOps ops).content) := by
  constructor
  · intro c cs hlen hch
    rw [runRecords c cs hlen hch]
    have h0 : (0 : Int) ≤ (recordedState (c :: cs)).historyIndex := by
      show (0 : Int) ≤ ((c :: cs).length : Int) - 1
      simp
    have hhi : (recordedState (c :: cs)).historyIndex <
        ((recordedState (c :: cs)).history.length : Int) := by
      show ((c :: cs).length : Int) - 1 < (((c :: cs).map entryOf).length : Int)
      simp
    have hcont : ∃ e, (recordedState (c :: cs)).history[
        (recordedState (c :: cs)).historyIndex.toNat]? = some e ∧
        (recordedState (c :: cs)).content = e.content := by
      refine ⟨entryOf ((c :: cs).getLast (by simp)), ?_, ?_⟩
      · show ((c :: cs).map entryOf)[(((c :: cs).length : Int) - 1).toNat]? = _
        have hidx : (((c :: cs).length : Int) - 1).toNat =
            ((c :: cs).map entryOf).length - 1 := by
          simp
        rw [hidx, ← List.getLast?_eq_getElem?, List.getLast?_map,
            List.getLast?_eq_getLast _ (by simp)]
        rfl
      · show ((c :: cs).getLast?).getD "" = _
        rw [List.getLast?_eq_getLast _ (by simp)]
        rfl
    obtain ⟨hh, hi, e, he, hec⟩ := undo_iterate (recordedState (c :: cs)) h0 hhi hcont
      ((c :: cs).length)
    have hi0 : (undoOp^[(c :: cs).length] (recordedState (c :: cs))).historyIndex = 0 := by
      rw [hi]
      show max ((((c :: cs).length : Int) - 1) - ((c :: cs).length : Nat)) 0 = 0
      exact max_eq_right (by omega)
    rw [hi0, hh] at he
    have hhead : (recordedState (c :: cs)).history[(0 : Int).toNat]? = some (entryOf c) := by
      show ((c :: cs).map entryOf)[(0 : Int).toNat]? = some (entryOf c)
      simp
    rw [hhead] at he
    have hee : entryOf c = e := by simpa using he
    rw [hec, ← hee]
    rfl
  · exact undo_redo_roundtrip

/-- Witness for C5 (amended) at N = 2, contents "a" then "b". -/
theorem C5_amended_witness :
    (undoOp^[2] (runOps (recordsOf ["a", "b"]))).content = "a" ∧
    (redoOp (undoOp (runOps [EditorOp.record "a" 0 0, EditorOp.record "b" 0 0]))).content =
      (runOps [EditorOp.record "a" 0 0, EditorOp.record "b" 0 0]).content := by
  constructor
  · exact C5_amended_undo_behavior.1 "a" ["b"] (by decide)
      (List.chain'_pair.mpr (by decide))
  · exact C5_amended_undo_behavior.2 [EditorOp.record "a" 0 0, EditorOp.record "b" 0 0]
      (by decide)

/-! ## A small regular-expression engine (Brzozowski derivatives)

Used to embed the fourteen markdown-signature regexes of
`PDFGenerator.hasMarkdownSyntax` (src/js/pdf/pdf-generator.js, lines
93–113) with JavaScript `test()` semantics.  JavaScript `test()` for a
pattern without anchors, captures, or backreferences holds exactly when
some substring belongs to the pattern's language; the multiline `^`/`$`
anchors are handled outside the engine. -/

inductive Rx where
  | fail
  | eps
  | chr (p : Char → Bool)
  | cat (a b : Rx)
  | alt (a b : Rx)
  | star (a : Rx)

def Rx.nullable : Rx → Bool
  | .fail => false
  | .eps => true
  | .chr _ => false
  | .cat a b => a.nullable && b.nullable
  | .alt a b => a.nullable || b.nullable
  | .star _ => true

def Rx.deriv : Rx → Char → Rx
  | .fail, _ => .fail
  | .eps, _ => .fail
  | .chr p, c => if p c then .eps else .fail
  | .cat a b, c =>
    if a.nullable then .alt (.cat (a.deriv c) b) (b.deriv c)
    else .cat (a.deriv c) b
  | .alt a b, c => .alt (a.deriv c) (b.deriv c)
  | .star a, c => .cat (a.deriv c) (.star a)

/-- Does some prefix of the input match the pattern? -/
def canMatchFrom (re : Rx) : List Char → Bool
  | [] => re.nullable
  | c :: t => re.nullable || canMatchFrom (re.deriv c) t

/-- JavaScript `re.test(s)` for an unanchored pattern: does some substring
match? -/
def searchRx (re : Rx) : List Char → Bool
  | [] => canMatchFrom re []
  | l@(_ :: t) => canMatchFrom re l || searchRx re t

/-- Match attempts at each position right after a newline. -/
def anchorAfterNl (re : Rx) : List Char → Bool
  | [] => false
  | c :: t => (c = '\n' && canMatchFrom re t) || anchorAfterNl re t

/-- `re.test(s)` for a multiline `^X` pattern (no `$`): match at the start
of the string or right after any newline. -/
def multilineStartSearch (re : Rx) (l : List Char) : Bool :=
  canMatchFrom re l || anchorAfterNl re l

/-- Full match against the whole input. -/
def matchAll (re : Rx) (l : List Char) : Bool :=
  (l.foldl Rx.deriv re).nullable

/-- `re.test(s)` for a multiline `^X$` pattern whose body cannot match a
newline: some full line matches the body. -/
def multilineLineSearch (re : Rx) (l : List Char) : Bool :=
  (splitOnChar '\n' l).any (fun line => matchAll re line)

def Rx.chrEq (c : Char) : Rx := .chr (fun x => x = c)

/-- `X+`. -/
def Rx.plus (a : Rx) : Rx := .cat a (.star a)

/-- `X?`. -/
def Rx.opt (a : Rx) : Rx := .alt a .eps

/-- `X{1,n}` for `n ≥ 1`. -/
def rep1UpTo (a : Rx) : Nat → Rx
  | 0 => a
  | 1 => a
  | n + 2 => .cat a (.opt (rep1UpTo a (n + 1)))

/-- JavaScript `\s`. -/
def jsWsRx : Rx := .chr isJsWs

/-- JavaScript `.` (anything but a newline, without the dotall flag). -/
def nonNlRx : Rx := .chr (fun c => c ≠ '\n')

/-- JavaScript `\d`. -/
def digitRx : Rx := .chr (fun c => '0' ≤ c && c ≤ '9')

/-! The fourteen `markdownPatterns` of `hasMarkdownSyntax`, in source order. -/

/-- `/^#{1,6}\s/m` — headings. -/
def patHeading : Rx := .cat (rep1UpTo (Rx.chrEq '#') 6) jsWsRx

/-- `/\*\*[^*]+\*\*/` — bold with asterisks. -/
def patBoldStar : Rx :=
  .cat (.cat (Rx.chrEq '*') (Rx.chrEq '*'))
    (.cat (Rx.plus (.chr (fun c => c ≠ '*')))
      (.cat (Rx.chrEq '*') (Rx.chrEq '*')))

/-- `/__[^_]+__/` — bold with underscores. -/
def patBoldUnder : Rx :=
  .cat (.cat (Rx.chrEq '_') (Rx.chrEq '_'))
    (.cat (Rx.plus (.chr (fun c => c ≠ '_')))
      (.cat (Rx.chrEq '_') (Rx.chrEq '_')))

/-- `/\*[^*]+\*/` — italics with asterisks. -/
def patItalicStar : Rx :=
  .cat (Rx.chrEq '*') (.cat (Rx.plus (.chr (fun c => c ≠ '*'))) (Rx.chrEq '*'))

/-- `/_[^_]+_/` — italics with underscores. -/
def patItalicUnder : Rx :=
  .cat (Rx.chrEq '_') (.cat (Rx.plus (.chr (fun c => c ≠ '_'))) (Rx.chrEq '_'))

/-- `/\[.+\]\(.+\)/` — links. -/
def patLink : Rx :=
  .cat (Rx.chrEq '[')
    (.cat (Rx.plus nonNlRx)
      (.cat (Rx.chrEq ']')
        (.cat (Rx.chrEq '(')
          (.cat (Rx.plus nonNlRx) (Rx.chrEq ')')))))

/-- `/!\[.*\]\(.+\)/` — images. -/
def patImage : Rx :=
  .cat (Rx.chrEq '!')
    (.cat (Rx.chrEq '[')
      (.cat (.star nonNlRx)
        (.cat (Rx.chrEq ']')
          (.cat (Rx.chrEq '(')
            (.cat (Rx.plus nonNlRx) (Rx.chrEq ')'))))))

/-- `/^[-*+]\s/m` — unordered lists. -/
def patList : Rx :=
  .cat (.chr (fun c => c = '-' || c = '*' || c = '+')) jsWsRx

/-- `/^\d+\.\s/m` — ordered lists. -/
def patOrdered : Rx :=
  .cat (Rx.plus digitRx) (.cat (Rx.chrEq '.') jsWsRx)

/-- `/^>\s/m` — blockquotes. -/
def patQuote : Rx := .cat (Rx.chrEq '>') jsWsRx

/-- Three backticks — fenced code blocks. -/
def patFence : Rx :=
  .cat (Rx.chrEq backtick) (.cat (Rx.chrEq backtick) (Rx.chrEq backtick))

/-- A backtick, one or more non-backticks, a backtick — inline code. -/
def patInlineCode : Rx :=
  .cat (Rx.chrEq backtick)
    (.cat (Rx.plus (.chr (fun c => c ≠ backtick))) (Rx.chrEq backtick))

/-- `/^\|.+\|$/m` — table rows. -/
def patTableRow : Rx :=
  .cat (Rx.chrEq '|') (.cat (Rx.plus nonNlRx) (Rx.chrEq '|'))

/-- `/^---+$/m` — horizontal rules. -/
def patHr : Rx :=
  .cat (Rx.chrEq '-') (.cat (Rx.chrEq '-') (Rx.plus (Rx.chrEq '-')))

/-- `PDFGenerator.hasMarkdownSyntax(content)`:
`markdownPatterns.some(pattern => pattern.test(content))`. -/
def hasMarkdownSyntax (content : String) : Bool :=
  multilineStartSearch patHeading content.data ||
  searchRx patBoldStar content.data ||
  searchRx patBoldUnder content.data ||
  searchRx patItalicStar content.data ||
  searchRx patItalicUnder content.data ||
  searchRx patLink content.data ||
  searchRx patImage content.data ||
  multilineStartSearch patList content.data ||
  multilineStartSearch patOrdered content.data ||
  multilineStartSearch patQuote content.data ||
  searchRx patFence content.data ||
  searchRx patInlineCode content.data ||
  multilineLineSearch patTableRow content.data ||
  multilineLineSearch patHr content.data

/-! ## PDF generator dispatch (pdf-generator.js, `generate`, lines 63–73) -/

/-- The observable rendering decision of `generate`: which path is taken and
the exact string handed to that path — `renderPlainText(content)` on the
plain branch, or `marked.parse(content)` (the raw stored content, with no
table normalization) on the markdown branch. -/
inductive PdfRender where
  | plainText (content : String)
  | markdown (parsedArg : String)
deriving DecidableEq

/-- `const isPlainText = !this.hasMarkdownSyntax(content); if (isPlainText)
renderPlainText(content) else renderContent(marked.parse(content))`. -/
def generateRender (content : String) : PdfRender :=
  if hasMarkdownSyntax content then .markdown content else .plainText content

/-! ## Claims C3 and C4 -/

/-- C4: `generate` takes the plain-text rendering path exactly when none of
the fixed markdown syntax signatures matches the content; the detection is
a pure total function (`hasMarkdownSyntax`) applied to the original content
itself — the PDF path performs no preprocessing before the test. -/
theorem C4_plain_text_dispatch (content : String) :
    generateRender content = PdfRender.plainText content ↔
      hasMarkdownSyntax content = false := by
  unfold generateRender
  by_cases h : hasMarkdownSyntax content
  · simp [h]
  · simp [h]

/-- C3 (counterexample): for the stored markup "# T\nA | B\n1 | 2" the PDF
export path parses the raw content, which differs from the Table-Block
Normalizer output — so the PDF layout engine does not receive the
normalized string the live preview parses. -/
theorem C3_counterexample :
    generateRender "# T\nA | B\n1 | 2" = PdfRender.markdown "# T\nA | B\n1 | 2" ∧
    normalizeTableBlocks "# T\nA | B\n1 | 2" ≠ "# T\nA | B\n1 | 2" := by
  constructor
  · decide
  · decide

/-- C3 (amended): the PDF export path parses the stored markup directly:
on the markdown branch the string handed to `marked.parse` is the content
itself, never the Table-Block Normalizer output — so whenever normalization
would change the content (e.g. a pipe table lacking a separator row), the
PDF layout engine receives the un-normalized string.  Only the live-preview
path (`EditorManager.parseMarkdown`) normalizes. -/
theorem C3_amended_pdf_parses_raw (content : String)
    (h : hasMarkdownSyntax content = true) :
    generateRender content = PdfRender.markdown content ∧
    (normalizeTableBlocks content ≠ content →
      generateRender content ≠ PdfRender.markdown (normalizeTableBlocks content)) := by
  have hgen : generateRender content = PdfRender.markdown content := by
    unfold generateRender
    rw [h]
    rfl
  refine ⟨hgen, ?_⟩
  intro hne heq
  rw [hgen] at heq
  have : content = normalizeTableBlocks content := by
    injection heq
  exact hne this.symm

/-- Witness for C3 (amended) at the counterexample input. -/
theorem C3_amended_witness :
    generateRender "# T\nA | B\n1 | 2" = PdfRender.markdown "# T\nA | B\n1 | 2" :=
  (C3_amended_pdf_parses_raw "# T\nA | B\n1 | 2" (by decide)).1

/-! ## Template engine (template-engine.js, `customizeTemplate`, lines 221–243)

JavaScript numbers are modelled as rationals.  A customization overlay is a
partial descriptor: `none` marks an absent key.  The merge semantics follow
the source: top-level fields use `customizations.field || base.field`
(JavaScript `||`, so falsy values fall back), and `colors` is spread
key-by-key: `{ ...base.colors, ...(customizations.colors || {}) }`. -/

structure TemplateColors where
  primary : String
  secondary : String
  accent : String
  code : String
  codeText : String
deriving DecidableEq

structure HeadingSizes where
  h1 : Rat
  h2 : Rat
  h3 : Rat
  h4 : Rat
  h5 : Rat
  h6 : Rat
deriving DecidableEq

structure TemplateMargin where
  top : Rat
  right : Rat
  bottom : Rat
  left : Rat
deriving DecidableEq

structure Template where
  name : String
  displayName : String
  font : String
  fontSize : Rat
  lineHeight : Rat
  headingSize : HeadingSizes
  margin : TemplateMargin
  orientation : String
  pageSize : String
  colors : TemplateColors
deriving DecidableEq

structure CustomColors where
  primary : Option String
  secondary : Option String
  accent : Option String
  code : Option String
  codeText : Option String
deriving DecidableEq

structure Customization where
  font : Option String
  fontSize : Option Rat
  lineHeight : Option Rat
  margin : Option TemplateMargin
  orientation : Option String
  pageSize : Option String
  colors : Option CustomColors
deriving DecidableEq

/-- JavaScript `override || fallback` for a possibly-absent string. -/
def jsOrStr (v : Option String) (d : String) : String :=
  match v with
  | some s => if s = "" then d else s
  | none => d

/-- JavaScript `override || fallback` for a possibly-absent number. -/
def jsOrNum (v : Option Rat) (d : Rat) : Rat :=
  match v with
  | some n => if n = 0 then d else n
  | none => d

/-- `{ ...base.colors, ...overlayColors }`: key-by-key override. -/
def mergeColors (b : TemplateColors) (o : CustomColors) : TemplateColors :=
  { primary := o.primary.getD b.primary,
    secondary := o.secondary.getD b.secondary,
    accent := o.accent.getD b.accent,
    code := o.code.getD b.code,
    codeText := o.codeText.getD b.codeText }

/-- `customizations.colors || {}`. -/
def emptyCustomColors : CustomColors :=
  { primary := none, secondary := none, accent := none, code := none, codeText := none }

/-- `customizeTemplate` applied to the current (already accumulated)
customization overlay: spread the base, override the six top-level fields
via `||`, and merge `colors` key-by-key over the base palette. -/
def customizeTemplate (base : Template) (cust : Customization) : Template :=
  { base with
    font := jsOrStr cust.font base.font,
    fontSize := jsOrNum cust.fontSize base.fontSize,
    lineHeight := jsOrNum cust.lineHeight base.lineHeight,
    margin := cust.margin.getD base.margin,
    orientation := jsOrStr cust.orientation base.orientation,
    pageSize := jsOrStr cust.pageSize base.pageSize,
    colors := mergeColors base.colors (cust.colors.getD emptyCustomColors) }

/-- The built-in "clean" preset of `getDefaultTemplates` (used as a concrete
witness input). -/
def cleanTemplate : Template :=
  { name := "clean", displayName := "클린", font := "NanumGothic",
    fontSize := 12, lineHeight := 8/5,
    headingSize := { h1 := 26, h2 := 21, h3 := 18, h4 := 16, h5 := 14, h6 := 12 },
    margin := { top := 72, right := 72, bottom := 72, left := 72 },
    orientation := "portrait", pageSize := "a4",
    colors := { primary := "#2c3e50", secondary := "#7f8c8d", accent := "#3498db",
                code := "#ecf0f1", codeText := "#e74c3c" } }

/-! ## Claim C7 -/

/-- C7: a customization overlay that sets only `fontSize` leaves the
effective descriptor's colors exactly equal (key-by-key) to the base
template's colors; and more generally `colors` is merged key-by-key over
the base rather than replaced wholesale — overriding just the accent color
preserves the other four palette slots. -/
theorem C7_colors_merge (base : Template) (cust : Customization) :
    (cust.font = none → cust.lineHeight = none → cust.margin = none →
      cust.orientation = none → cust.pageSize = none → cust.colors = none →
      (customizeTemplate base cust).colors = base.colors) ∧
    (∀ oc : CustomColors, cust.colors = some oc →
      oc.primary = none → oc.secondary = none → oc.code = none → oc.codeText = none →
      ((customizeTemplate base cust).colors.primary = base.colors.primary ∧
       (customizeTemplate base cust).colors.secondary = base.colors.secondary ∧
       (customizeTemplate base cust).colors.code = base.colors.code ∧
       (customizeTemplate base cust).colors.codeText = base.colors.codeText ∧
       ∀ v : String, oc.accent = some v →
         (customizeTemplate base cust).colors.accent = v)) := by
  constructor
  · intro _ _ _ _ _ hcol
    show mergeColors base.colors (cust.colors.getD emptyCustomColors) = base.colors
    rw [hcol]
    rfl
  · intro oc hcol h1 h2 h3 h4
    have hm : (customizeTemplate base cust).colors = mergeColors base.colors oc := by
      show mergeColors base.colors (cust.colors.getD emptyCustomColors) = _
      rw [hcol]
      rfl
    rw [hm]
    refine ⟨?_, ?_, ?_, ?_, ?_⟩
    · show oc.primary.getD base.colors.primary = base.colors.primary
      rw [h1]
      rfl
    · show oc.secondary.getD base.colors.secondary = base.colors.secondary
      rw [h2]
      rfl
    · show oc.code.getD base.colors.code = base.colors.code
      rw [h3]
      rfl
    · show oc.codeText.getD base.colors.codeText = base.colors.codeText
      rw [h4]
      rfl
    · intro v hv
      show oc.accent.getD base.colors.accent = v
      rw [hv]
      rfl

/-- Witness for C7: over the "clean" preset, an overlay setting only
`fontSize := 14` keeps the palette, and an overlay setting only the accent
color keeps the other four slots. -/
theorem C7_colors_merge_witness :
    (customizeTemplate cleanTemplate
      { font := none, fontSize := some 14, lineHeight := none, margin := none,
        orientation := none, pageSize := none, colors := none }).colors =
      cleanTemplate.colors ∧
    (customizeTemplate cleanTemplate
      { font := none, fontSize := none, lineHeight := none, margin := none,
        orientation := none, pageSize := none,
        colors := some { primary := none, secondary := none, accent := some "#ff0000",
                         code := none, codeText := none } }).colors.accent = "#ff0000" := by
  constructor
  · exact (C7_colors_merge cleanTemplate _).1 rfl rfl rfl rfl rfl rfl
  · exact ((C7_colors_merge cleanTemplate _).2 _ rfl rfl rfl rfl rfl).2.2.2.2 "#ff0000" rfl

/-! ## Font loader (font-loader.js, `loadFont` / `fetchAndCacheFont`)

The host runtime is single-threaded, so the synchronous prefix of
`loadFont` (lines 24–40: cache check, pending-promise check, promise
registration and fetch start) executes atomically; each `await` is a
scheduling point.  The loader is embedded as a transition system whose
events are this synchronous prefix and the two ways the fetch settles.
`fetchLog` records each invocation of `fetchAndCacheFont` (one network
fetch each). -/

structure FontLoaderState where
  loadedFonts : List (String × String)
  loadingPromises : List String
  fetchLog : List String
deriving DecidableEq

/-- `Map.get` over the association list (newest binding wins). -/
def lookupFont (m : List (String × String)) (k : String) : Option String :=
  match m.find? (fun p => p.1 = k) with
  | some p => some p.2
  | none => none

def initialFontLoaderState : FontLoaderState :=
  { loadedFonts := [], loadingPromises := [], fetchLog := [] }

/-- The synchronous prefix of `loadFont(doc, fontName)`: already cached →
use it; already loading → await the existing promise (no new fetch);
otherwise register a pending promise and start `fetchAndCacheFont`. -/
def loadFontStart (s : FontLoaderState) (fontName : String) : FontLoaderState :=
  if (lookupFont s.loadedFonts fontName).isSome then s
  else if fontName ∈ s.loadingPromises then s
  else
    { s with loadingPromises := fontName :: s.loadingPromises,
             fetchLog := fontName :: s.fetchLog }

/-- `fetchAndCacheFont` resolves: the data is cached (line 81) and the
awaiting `loadFont` deletes the pending promise (line 45). -/
def fontFetchSuccess (s : FontLoaderState) (fontName data : String) : FontLoaderState :=
  { s with loadedFonts := (fontName, data) :: s.loadedFonts,
           loadingPromises := s.loadingPromises.filter (fun f => f ≠ fontName) }

/-- `fetchAndCacheFont` rejects: the catch in `loadFont` (line 49) deletes
the pending promise; nothing is cached. -/
def fontFetchFailure (s : FontLoaderState) (fontName : String) : FontLoaderState :=
  { s with loadingPromises := s.loadingPromises.filter (fun f => f ≠ fontName) }

/-! ## Claim C8 -/

/-- C8: a first `loadFont` call for an unloaded family starts exactly one
fetch and a second call issued while that fetch is in flight changes
nothing (it awaits the same pending promise, so two concurrent calls
perform exactly one underlying fetch); on fetch failure the font is not
cached and the pending promise is cleared, so a later call starts a fresh
fetch. -/
theorem C8_font_cache_single_flight :
    (∀ (s : FontLoaderState) (f : String),
      lookupFont s.loadedFonts f = none → f ∉ s.loadingPromises →
        (loadFontStart s f).fetchLog = f :: s.fetchLog ∧
        loadFontStart (loadFontStart s f) f = loadFontStart s f) ∧
    (∀ (s : FontLoaderState) (f : String),
      (fontFetchFailure s f).loadedFonts = s.loadedFonts ∧
      f ∉ (fontFetchFailure s f).loadingPromises) ∧
    (∀ (s : FontLoaderState) (f : String),
      lookupFont s.loadedFonts f = none →
        (loadFontStart (fontFetchFailure s f) f).fetchLog =
          f :: (fontFetchFailure s f).fetchLog) := by
  refine ⟨?_, ?_, ?_⟩
  · intro s f hcache hpend
    have hstart : loadFontStart s f =
        { s with loadingPromises := f :: s.loadingPromises,
                 fetchLog := f :: s.fetchLog } := by
      unfold loadFontStart
      rw [hcache]
      simp [hpend]
    constructor
    · rw [hstart]
    · rw [hstart]
      unfold loadFontStart
      rw [show lookupFont
            ({ s with loadingPromises := f :: s.loadingPromises,
                      fetchLog := f :: s.fetchLog } : FontLoaderState).loadedFonts f =
          none from hcache]
      simp
  · intro s f
    constructor
    · rfl
    · show f ∉ s.loadingPromises.filter (fun x => x ≠ f)
      intro hmem
      have := List.of_mem_filter hmem
      simp at this
  · intro s f hcache
    have hpend : f ∉ (fontFetchFailure s f).loadingPromises := by
      show f ∉ s.loadingPromises.filter (fun x => x ≠ f)
      intro hmem
      have := List.of_mem_filter hmem
      simp at this
    have hcache2 : lookupFont (fontFetchFailure s f).loadedFonts f = none := hcache
    unfold loadFontStart
    rw [hcache2]
    simp [hpend]

/-- Witness for C8 at the initial state and the "NanumGothic" family. -/
theorem C8_font_cache_witness :
    (loadFontStart initialFontLoaderState "NanumGothic").fetchLog = ["NanumGothic"] ∧
    loadFontStart (loadFontStart initialFontLoaderState "NanumGothic") "NanumGothic" =
      loadFontStart initialFontLoaderState "NanumGothic" ∧
    (loadFontStart (fontFetchFailure initialFontLoaderState "NanumGothic")
      "NanumGothic").fetchLog =
      "NanumGothic" :: (fontFetchFailure initialFontLoaderState "NanumGothic").fetchLog := by
  refine ⟨?_, ?_, ?_⟩
  · exact (C8_font_cache_single_flight.1 initialFontLoaderState "NanumGothic"
      (by decide) (by decide)).1
  · exact (C8_font_cache_single_flight.1 initialFontLoaderState "NanumGothic"
      (by decide) (by decide)).2
  · exact C8_font_cache_single_flight.2.2 initialFontLoaderState "NanumGothic" (by decide)

/-! ## Title extraction (paste-handler.js, `MarkdownHelper.extractTitle`,
lines 616–635; also stored unmodified as the document title by
`EditorManager.saveDocument`, editor-manager.js lines 678–690). -/

/-- `line.startsWith('# ')`. -/
def startsWithH1 (l : List Char) : Bool :=
  match l with
  | '#' :: ' ' :: _ => true
  | _ => false

/-- The second loop's condition: `trimmed && !trimmed.startsWith('#')`. -/
def isPlainTitleLine (l : List Char) : Bool :=
  match jsTrim l with
  | [] => false
  | c :: _ => c ≠ '#'

/-- `MarkdownHelper.extractTitle(markdown)`: first `'# '` heading line's
text (`substring(2).trim()`, untruncated), else the first non-empty
non-heading line truncated to 50 characters, else the literal fallback. -/
def extractTitle (markdown : String) : String :=
  let lines := splitOnChar '\n' (jsTrim markdown.data)
  match lines.find? startsWithH1 with
  | some l => String.mk (jsTrim (l.drop 2))
  | none =>
    match lines.find? isPlainTitleLine with
    | some l => String.mk ((jsTrim l).take 50)
    | none => "제목 없음"

/-! ## Claim C9 -/

/-- C9 (counterexample): a document whose first line is a level-1 heading
with 60 characters of text yields a title of 60 characters — the heading
path of `extractTitle` performs no 50-character truncation, contradicting
the claim that the returned title is at most 50 characters in every case. -/
theorem C9_counterexample :
    50 < (extractTitle (String.mk ('#' :: ' ' :: List.replicate 60 'a'))).length := by
  decide

/-- C9 (amended): the derived title is the text of the first level-1
heading line if one exists — trimmed but NOT truncated, so it may exceed 50
characters — otherwise the first non-empty line not starting with '#',
truncated to 50 characters, otherwise a fixed 5-character fallback; hence
the 50-character bound holds whenever the markdown has no `'# '` heading
line. -/
theorem C9_amended_title_truncation (markdown : String)
    (h : (splitOnChar '\n' (jsTrim markdown.data)).find? startsWithH1 = none) :
    (extractTitle markdown).length ≤ 50 := by
  unfold extractTitle
  dsimp only
  rw [h]
  cases h2 : (splitOnChar '\n' (jsTrim markdown.data)).find? isPlainTitleLine with
  | none =>
    show ("제목 없음" : String).length ≤ 50
    decide
  | some l =>
    show (String.mk ((jsTrim l).take 50)).length ≤ 50
    exact List.length_take_le 50 (jsTrim l)

/-- Witness for C9 (amended): a heading-free document. -/
theorem C9_amended_witness : (extractTitle "hello world").length ≤ 50 :=
  C9_amended_title_truncation "hello world" (by decide)

/-! ## Page settings (pdf-generator.js, `getDefaultPageSettings`, lines 177–193)

Settings fields may hold arbitrary JavaScript values; they are modelled by
a small value universe with JavaScript truthiness (numbers as integers).
`pageNumber` may be absent (`settings.pageNumber?.x` optional chaining). -/

inductive JsVal where
  | undef
  | boolean (b : Bool)
  | number (n : Int)
  | str (s : String)
deriving DecidableEq

/-- JavaScript truthiness. -/
def JsVal.truthy : JsVal → Bool
  | .undef => false
  | .boolean b => b
  | .number n => n ≠ 0
  | .str s => s ≠ ""

/-- JavaScript `a || b`. -/
def jsOr (a b : JsVal) : JsVal := if a.truthy then a else b

structure PageNumberSettingsIn where
  position : JsVal
  format : JsVal
  startFrom : JsVal
  excludeFirst : JsVal
deriving DecidableEq

structure PageSettingsIn where
  orientation : JsVal
  pageSize : JsVal
  showPageNumber : JsVal
  pageNumber : Option PageNumberSettingsIn
  header : JsVal
  headerLine : JsVal
  footer : JsVal
  footerLine : JsVal
deriving DecidableEq

/-- `settings.pageNumber?.field`. -/
def pnField (s : PageSettingsIn) (f : PageNumberSettingsIn → JsVal) : JsVal :=
  match s.pageNumber with
  | some pn => f pn
  | none => .undef

structure ResolvedPageSettings where
  orientation : JsVal
  pageSize : JsVal
  showPageNumber : Bool
  pnPosition : JsVal
  pnFormat : JsVal
  pnStartFrom : JsVal
  pnExcludeFirst : JsVal
  header : JsVal
  headerLine : JsVal
  footer : JsVal
  footerLine : JsVal
deriving DecidableEq

/-- `getDefaultPageSettings(settings)`. -/
def getDefaultPageSettings (settings : PageSettingsIn) : ResolvedPageSettings :=
  { orientation := jsOr settings.orientation (.str "portrait"),
    pageSize := jsOr settings.pageSize (.str "a4"),
    showPageNumber := settings.showPageNumber ≠ JsVal.boolean false,
    pnPosition := jsOr (pnField settings (fun pn => pn.position)) (.str "bottom-center"),
    pnFormat := jsOr (pnField settings (fun pn => pn.format)) (.str "number"),
    pnStartFrom := jsOr (pnField settings (fun pn => pn.startFrom)) (.number 1),
    pnExcludeFirst := jsOr (pnField settings (fun pn => pn.excludeFirst)) (.boolean false),
    header := jsOr settings.header (.str ""),
    headerLine := jsOr settings.headerLine (.boolean false),
    footer := jsOr settings.footer (.str ""),
    footerLine := jsOr settings.footerLine (.boolean false) }

/-! ## Claim C10 -/

/-- C10: whenever `pageNumber.startFrom` is falsy (0 in particular, or
absent), the resolved start offset is the literal 1; the resolved start
offset can never be 0 even when a caller explicitly requests it; and
`showPageNumber` resolves to true for every value other than the literal
`false`. -/
theorem C10_page_settings_defaults (settings : PageSettingsIn) :
    ((pnField settings (fun pn => pn.startFrom)).truthy = false →
      (getDefaultPageSettings settings).pnStartFrom = JsVal.number 1) ∧
    (getDefaultPageSettings settings).pnStartFrom ≠ JsVal.number 0 ∧
    (settings.showPageNumber ≠ JsVal.boolean false →
      (getDefaultPageSettings settings).showPageNumber = true) := by
  refine ⟨?_, ?_, ?_⟩
  · intro hfalsy
    show jsOr (pnField settings (fun pn => pn.startFrom)) (.number 1) = JsVal.number 1
    unfold jsOr
    rw [hfalsy]
    rfl
  · show jsOr (pnField settings (fun pn => pn.startFrom)) (.number 1) ≠ JsVal.number 0
    unfold jsOr
    by_cases ht : (pnField settings (fun pn => pn.startFrom)).truthy
    · rw [if_pos ht]
      intro heq
      rw [heq] at ht
      simp [JsVal.truthy] at ht
    · rw [if_neg ht]
      intro heq
      simp at heq
  · intro hne
    show (decide (settings.showPageNumber ≠ JsVal.boolean false) : Bool) = true
    simpa using hne

/-- Witness for C10: a settings object explicitly requesting
`startFrom = 0` with `showPageNumber` left undefined. -/
theorem C10_page_settings_witness :
    (getDefaultPageSettings
      { orientation := .undef, pageSize := .undef, showPageNumber := .undef,
        pageNumber := some { position := .undef, format := .undef,
                             startFrom := .number 0, excludeFirst := .undef },
        header := .undef, headerLine := .undef, footer := .undef,
        footerLine := .undef }).pnStartFrom = JsVal.number 1 ∧
    (getDefaultPageSettings
      { orientation := .undef, pageSize := .undef, showPageNumber := .undef,
        pageNumber := some { position := .undef, format := .undef,
                             startFrom := .number 0, excludeFirst := .undef },
        header := .undef, headerLine := .undef, footer := .undef,
        footerLine := .undef }).showPageNumber = true := by
  constructor
  · exact (C10_page_settings_defaults _).1 (by decide)
  · exact (C10_page_settings_defaults _).2.2 (by decide)
